import Mathlib

/-!
Shallow embedding of the Yahtzee terminal game (src/main.rs).

Modelling conventions:
* `u8` quantities are `Nat`; where the source stores into a `u8` slot the
  value is reduced `% 256` (the parameter type boundary).  All scores actually
  produced by the game stay far below 256 (see the C10 theorem).
* `i32` quantities (player totals, highscore values) are `Int`; the i32 range
  is never approached by reachable game states (at most 13 commits of at most
  50 points plus one 35 point bonus per player).
* Rust strings / file contents are lists of Unicode scalar values
  (`List Nat`), so `:` is 58, `\n` is 10, ` ` is 32, digits are 48..57.
* Fallible or non-total operations (`max_by_key` on a possibly empty iterator)
  return `Option`.
-/

namespace Yahtzee

/-! ## ScoreEngine: `calculate_scores` -/

/-- Ascending insertion used to model `dice.sort()` (equal `u8`s are
indistinguishable, so any correct ascending sort has the same result). -/
def insertAsc (x : Nat) : List Nat → List Nat
  | [] => [x]
  | y :: ys => if x ≤ y then x :: y :: ys else y :: insertAsc x ys

/-- Embeds `dice.sort()`: sort the five dice ascending. -/
def sortNat (l : List Nat) : List Nat := l.foldr insertAsc []

/-- Embeds `dice.iter().filter(|&n| n == f).count()`: occurrences of face `f`. -/
def countFace (dice : List Nat) (f : Nat) : Nat :=
  (dice.filter (fun n => n == f)).length

/-- The two-pass loop of `calculate_scores` computing
`most_frequent_count` and `second_most_frequent_count` over the six
face counts (fold state is that pair, started at `(0, 0)`). -/
def mostTwo (counts : List Nat) : Nat × Nat :=
  counts.foldl
    (fun p c =>
      if p.1 < c then (c, p.1)
      else if p.2 < c then (p.1, c)
      else p)
    (0, 0)

/-- Inner loop of the `straight_len` block: arguments are the remaining
sorted dice, the previous die, `cur_len` and `max_len`. -/
def straightAux : List Nat → Nat → Nat → Nat → Nat
  | [], _, cur, m => max cur m
  | d :: rest, prev, cur, m =>
    if d = prev + 1 then straightAux rest d (cur + 1) m
    else if d = prev then straightAux rest d cur m
    else straightAux rest d 1 (max cur m)

/-- Embeds `straight_len`: longest run of strictly consecutive values in the
sorted dice (duplicates neither extend nor break a run). -/
def straight_len (sorted : List Nat) : Nat :=
  match sorted with
  | [] => 1
  | d :: rest => straightAux rest d 1 0

/-- Embeds `calculate_scores(dice) -> [u8; 13]`: the thirteen category previews,
index order Aces..Chance.  The source asserts the input has exactly five
entries (`try_into().unwrap()`); theorems hypothesise length 5. -/
def calculate_scores (dice : List Nat) : List Nat :=
  let d := sortNat dice
  let counts := (List.range 6).map (fun i => countFace d (i + 1))
  let upper := (List.range 6).map (fun i => countFace d (i + 1) * (i + 1))
  let mf := (mostTwo counts).1
  let smf := (mostTwo counts).2
  let total := d.sum
  upper ++
    [if 3 ≤ mf then total else 0,
     if 4 ≤ mf then total else 0,
     if mf = 3 ∧ smf = 2 then 25 else 0,
     if 4 ≤ straight_len d then 30 else 0,
     if 5 ≤ straight_len d then 40 else 0,
     if 5 ≤ mf then 50 else 0,
     total]

/-! ## ScoreBook: `PlayerData` -/

/-- Embeds `PlayerData`: per player score book.  `score` is the `i32` running
total, `combinations_scores` the `[u8; 13]` committed scores,
`combinations_used` the `[bool; 13]` used flags. -/
structure PlayerData where
  score : Int
  combinations_scores : List Nat
  combinations_used : List Bool
  got_upper_bonus : Bool
deriving DecidableEq, Repr

/-- Embeds `Default` derive for `PlayerData`: zero total, all scores 0, all flags
false, bonus not yet awarded. -/
def PlayerData.default : PlayerData :=
  ⟨0, List.replicate 13 0, List.replicate 13 false, false⟩

/-- Embeds `PlayerData::has_used`. -/
def PlayerData.has_used (p : PlayerData) (index : Nat) : Bool :=
  p.combinations_used.getD index false

/-- Embeds `PlayerData::upper_sum`: `self.combinations_scores[0..6].iter()
.sum::<u8>() as i32`.  The `% 256` renders the `u8` accumulator; the six
stored scores never exceed 30 each in reachable states, so the reduction
is the identity there. -/
def PlayerData.upper_sum (p : PlayerData) : Int :=
  (((p.combinations_scores.take 6).sum) % 256 : Nat)

/-- Embeds `PlayerData::add_score`: store the score, mark the category used, add
the score to the total, then award the one-off +35 upper bonus when this
was an upper-section commit (`index <= Sixes`), the bonus was not yet
awarded and the upper sum reached 63. -/
def PlayerData.add_score (p : PlayerData) (index : Nat) (score : Nat) : PlayerData :=
  let s := score % 256
  let p1 : PlayerData :=
    { p with
      combinations_scores := p.combinations_scores.set index s
      combinations_used := p.combinations_used.set index true
      score := p.score + s }
  if p1.got_upper_bonus = false ∧ index ≤ 5 ∧ 63 ≤ p1.upper_sum then
    { p1 with score := p1.score + 35, got_upper_bonus := true }
  else p1

/-- A whole sequence of commits, applied left to right. -/
def commitAll (p : PlayerData) (ops : List (Nat × Nat)) : PlayerData :=
  ops.foldl (fun q op => q.add_score op.1 op.2) p

/-! ## TurnCycle: `Turn` -/

inductive PlayerKind where
  | Human
  | AI
deriving DecidableEq, Repr

/-- Embeds `Turn`: current actor and round counter (`u32`; it never leaves 1..14
before the game ends, so `Nat` models it exactly on the reachable range). -/
structure Turn where
  player : PlayerKind
  n : Nat
deriving DecidableEq, Repr

/-- Embeds `Default` derive for `Turn`: the human moves first in round 1. -/
def Turn.default : Turn := ⟨.Human, 1⟩

/-- Embeds `Turn::next`. -/
def Turn.next (t : Turn) : Turn :=
  match t.player with
  | .Human => ⟨.AI, t.n⟩
  | .AI => ⟨.Human, t.n + 1⟩

/-- State of the turn machine after `k` commits, starting from the
default state (the main loop calls `turn.next()` once per commit). -/
def turnAt (k : Nat) : Turn := Turn.next^[k] Turn.default

/-- The main loop terminal test `game_state.turn.n == 14`. -/
def Turn.isTerminal (t : Turn) : Bool := t.n == 14

/-! ## AIPolicy: `ai_choice` -/

/-- Embeds `combinations_used.iter().enumerate().filter(|x| !*x.1).map(|x| x.0)`:
indices of the unused categories, in increasing order, starting the
enumeration at `i`. -/
def unusedIdx : Nat → List Bool → List Nat
  | _, [] => []
  | i, b :: rest => if b then unusedIdx (i + 1) rest else i :: unusedIdx (i + 1) rest

/-- One step of Rust `Iterator::max_by_key`: keep the running maximum,
replacing it whenever the new key is at least as large (so on equal keys
the later element wins). -/
def maxStep (key : Nat → Nat) (acc : Option Nat) (x : Nat) : Option Nat :=
  match acc with
  | none => some x
  | some m => if key m ≤ key x then some x else some m

/-- Rust `Iterator::max_by_key` on a list of indices: `none` on an empty
iterator, otherwise the last element attaining the maximal key. -/
def maxByKeyLast (key : Nat → Nat) (l : List Nat) : Option Nat :=
  l.foldl (maxStep key) none

/-- Embeds `ai_choice(ai, scores)`: the unused category with the maximal preview
score (the source `expect`s the unused set to be nonempty; that failure
mode is the `none` case here). -/
def ai_choice (ai : PlayerData) (scores : List Nat) : Option Nat :=
  maxByKeyLast (fun i => scores.getD i 0) (unusedIdx 0 ai.combinations_used)

/-! ## RankingStore: `Highscore`, `get_highscores`, `write_highscores`,
insertion via `binary_search_by` -/

/-- Embeds `Highscore`: a ranking record, name plus `i32` score. -/
structure Highscore where
  name : List Nat
  score : Int
deriving DecidableEq, Repr

/-- Decimal digits, least significant first; structural recursion on a
fuel argument (any fuel at least the value itself is enough, see
`natDigitsRevAux_fuel`). -/
def natDigitsRevAux : Nat → Nat → List Nat
  | _, 0 => []
  | fuel, n + 1 =>
    match fuel with
    | 0 => []
    | f + 1 => (48 + (n + 1) % 10) :: natDigitsRevAux f ((n + 1) / 10)

/-- Decimal digits of `n`, least significant first (empty for 0). -/
def natDigitsRev (n : Nat) : List Nat := natDigitsRevAux n n

/-- Decimal rendering of a `Nat` (Rust `Display` for unsigned values). -/
def natToStr (n : Nat) : List Nat :=
  if n = 0 then [48] else (natDigitsRev n).reverse

/-- Rust `Display` for `i32`: a `-` sign for negative values, then the
decimal digits of the absolute value. -/
def intToStr (i : Int) : List Nat :=
  if i < 0 then 45 :: natToStr i.natAbs else natToStr i.natAbs

/-- Embeds `impl Display for Highscore`: the name, a colon, a space, then
the decimal score. -/
def hsLine (h : Highscore) : List Nat := h.name ++ [58, 32] ++ intToStr h.score

/-- Embeds `write_highscores`: one `writeln!`-terminated record per entry, in
order, to a freshly created (truncated) file; the result is the full file
contents. -/
def write_highscores : List Highscore → List Nat
  | [] => []
  | h :: t => hsLine h ++ [10] ++ write_highscores t

/-- Rust `str::split(sep)`: the (always nonempty) list of parts between
occurrences of the separator. -/
def splitSep (sep : Nat) : List Nat → List (List Nat)
  | [] => [[]]
  | c :: rest =>
    match splitSep sep rest with
    | p :: ps => if c = sep then [] :: p :: ps else (c :: p) :: ps
    | [] => if c = sep then [[], []] else [[c]]

/-- The trailing `\r` strip performed by `BufRead::lines`. -/
def stripCR (l : List Nat) : List Nat :=
  if l.getLast? = some 13 then l.dropLast else l

/-- Embeds `BufRead::lines` on the whole file contents: split on `\n`, drop the
empty fragment after a final newline, strip a trailing `\r` per line. -/
def bufLines (text : List Nat) : List (List Nat) :=
  let parts := splitSep 10 text
  (if parts.getLast? = some [] then parts.dropLast else parts).map stripCR

/-- Embeds `char::is_whitespace` (the Unicode White_Space code points). -/
def isWs (c : Nat) : Bool :=
  c = 9 || c = 10 || c = 11 || c = 12 || c = 13 || c = 32 || c = 133 ||
  c = 160 || c = 5760 || (8192 ≤ c && c ≤ 8202) || c = 8232 || c = 8233 ||
  c = 8239 || c = 8287 || c = 12288

/-- Embeds `str::trim`. -/
def trim (l : List Nat) : List Nat :=
  ((l.dropWhile isWs).reverse.dropWhile isWs).reverse

/-- Digit-consuming loop of integer `from_str`: accumulates base-10
digits, rejecting any non-digit. -/
def parseDigitsAux : Nat → List Nat → Option Nat
  | acc, [] => some acc
  | acc, c :: cs =>
    if 48 ≤ c ∧ c ≤ 57 then parseDigitsAux (10 * acc + (c - 48)) cs else none

/-- A nonempty all-digit string parsed to a `Nat`. -/
def parseNatDigits (l : List Nat) : Option Nat :=
  match l with
  | [] => none
  | _ => parseDigitsAux 0 l

/-- Embeds `str::parse::<i32>()`: optional sign, at least one digit, nothing
else, and the value must fit in `i32`. -/
def parseI32 (l : List Nat) : Option Int :=
  match l with
  | [] => none
  | c :: rest =>
    if c = 43 then
      (parseNatDigits rest).bind fun n =>
        if n ≤ 2147483647 then some ((n : Int)) else none
    else if c = 45 then
      (parseNatDigits rest).bind fun n =>
        if n ≤ 2147483648 then some (-(n : Int)) else none
    else
      (parseNatDigits (c :: rest)).bind fun n =>
        if n ≤ 2147483647 then some ((n : Int)) else none

/-- One iteration of the `get_highscores` loop: a line is a record only
when splitting on `:` yields exactly a name and a score part whose
trimmed text parses as an `i32`. -/
def parseRecord (line : List Nat) : Option Highscore :=
  match splitSep 58 line with
  | [name, scoreStr] => (parseI32 (trim scoreStr)).map (fun s => ⟨name, s⟩)
  | _ => none

/-- The `get_highscores` accumulation loop over the lines, pushing each
parsed record and skipping the rest. -/
def loadLines (ls : List (List Nat)) : List Highscore :=
  ls.foldl
    (fun acc line =>
      match parseRecord line with
      | some h => acc ++ [h]
      | none => acc)
    []

/-- Embeds `get_highscores(path)`: an unopenable source (`none`) yields the empty
list, otherwise the lines of the contents are parsed in order. -/
def get_highscores (src : Option (List Nat)) : List Highscore :=
  match src with
  | none => []
  | some text => loadLines (bufLines text)

/-- Embeds `i32::cmp` as used by `binary_search_by`. -/
def cmpInt (a b : Int) : Ordering :=
  if a < b then .lt else if b < a then .gt else .eq

/-- The loop of Rust `slice::binary_search_by`: `inl` is `Ok(mid)` on a
comparator hit, `inr` is `Err(left)` with the insertion point.
Structural recursion on a fuel argument; the interval shrinks by at least
one element per iteration, so fuel `right - left` is enough and the
fuel-exhausted branch is unreachable (see `bsearchFuel_spec`). -/
def bsearchFuel (f : Nat → Ordering) : Nat → Nat → Nat → Nat ⊕ Nat
  | 0, left, _ => .inr left
  | fuel + 1, left, right =>
    if left < right then
      let mid := left + (right - left) / 2
      match f mid with
      | .lt => bsearchFuel f fuel (mid + 1) right
      | .gt => bsearchFuel f fuel left mid
      | .eq => .inl mid
    else .inr left

/-- Out-of-range placeholder for index accesses inside the comparator
(never reached for indices below the length). -/
def dummyHS : Highscore := ⟨[], 0⟩

/-- Embeds `highscores.binary_search_by(|h1| h.score.cmp(&h1.score))
.unwrap_or_else(|e| e)`: the chosen insertion position for score `s`. -/
def insertPos (hs : List Highscore) (s : Int) : Nat :=
  match bsearchFuel (fun i => cmpInt s (hs.getD i dummyHS).score) hs.length 0 hs.length with
  | .inl i => i
  | .inr i => i

/-- Embeds `Vec::insert` at index `i` (requires `i ≤ length` in Rust). -/
def insertAt (i : Nat) (x : α) (l : List α) : List α :=
  l.take i ++ x :: l.drop i

/-- Embeds `highscores.insert(pos, h)` with `pos` from the binary search. -/
def insertHighscore (hs : List Highscore) (h : Highscore) : List Highscore :=
  insertAt (insertPos hs h.score) h hs

/-- Non-increasing by score, the RankingStore order invariant. -/
def sortedDesc (hs : List Highscore) : Prop :=
  hs.Pairwise (fun a b => b.score ≤ a.score)

/-! ## Enumeration of the 7776 dice rolls -/

/-- The six faces. -/
def r6 : List Nat := [1, 2, 3, 4, 5, 6]

/-- Boolean form of the full-house shape: some face occurs three times and
a different face occurs twice. -/
def hasFullHousePattern (dice : List Nat) : Bool :=
  r6.any fun f => r6.any fun g =>
    (f != g) && (countFace dice f == 3) && (countFace dice g == 2)

/-- Per-roll boolean check behind claim C6. -/
def checkC6 (d : List Nat) : Bool :=
  (((calculate_scores d).getD 8 0 == 25) == hasFullHousePattern d) &&
  (((calculate_scores d).getD 8 0 == 25) || ((calculate_scores d).getD 8 0 == 0))

/-- Embeds `checkC6` over every non-decreasing five-dice roll (every roll is
score-equivalent to its sorted form, see the sort invariance lemmas). -/
def checkC6All : Bool :=
  r6.all fun a => r6.all fun b => r6.all fun c => r6.all fun d =>
    r6.all fun e =>
      !(a ≤ b && b ≤ c && c ≤ d && d ≤ e) || checkC6 [a, b, c, d, e]

/-! ## Sorting lemmas -/

theorem insertAsc_perm (x : Nat) (l : List Nat) : List.Perm (insertAsc x l) (x :: l) := by
  induction l with
  | nil => simp [insertAsc]
  | cons y ys ih =>
    simp only [insertAsc]
    split
    · exact .refl _
    · exact (ih.cons y).trans (List.Perm.swap x y ys)

theorem sortNat_perm (l : List Nat) : List.Perm (sortNat l) l := by
  induction l with
  | nil => simp [sortNat]
  | cons a t ih => exact (insertAsc_perm a (sortNat t)).trans (ih.cons a)

theorem insertAsc_pairwise {x : Nat} {l : List Nat}
    (h : l.Pairwise (· ≤ ·)) : (insertAsc x l).Pairwise (· ≤ ·) := by
  induction l with
  | nil => simp [insertAsc]
  | cons y ys ih =>
    rw [List.pairwise_cons] at h
    simp only [insertAsc]
    split
    · rename_i hxy
      rw [List.pairwise_cons]
      refine ⟨?_, List.pairwise_cons.mpr h⟩
      intro z hz
      rcases List.mem_cons.mp hz with hz | hz
      · omega
      · exact le_trans hxy (h.1 z hz)
    · rename_i hxy
      rw [List.pairwise_cons]
      refine ⟨?_, ih h.2⟩
      intro z hz
      have : z ∈ x :: ys := (insertAsc_perm x ys).mem_iff.mp hz
      rcases List.mem_cons.mp this with hz | hz
      · omega
      · exact h.1 z hz

theorem sortNat_pairwise (l : List Nat) : (sortNat l).Pairwise (· ≤ ·) := by
  induction l with
  | nil => simp [sortNat]
  | cons a t ih => exact insertAsc_pairwise ih

theorem sortNat_eq_of_pairwise {l : List Nat}
    (h : l.Pairwise (· ≤ ·)) : sortNat l = l := by
  induction l with
  | nil => rfl
  | cons a t ih =>
    rw [List.pairwise_cons] at h
    show insertAsc a (sortNat t) = a :: t
    rw [ih h.2]
    cases t with
    | nil => rfl
    | cons b ts => simp [insertAsc, h.1 b (List.mem_cons_self b ts)]

theorem sortNat_idem (l : List Nat) : sortNat (sortNat l) = sortNat l :=
  sortNat_eq_of_pairwise (sortNat_pairwise l)

theorem calculate_scores_sortNat (l : List Nat) :
    calculate_scores (sortNat l) = calculate_scores l := by
  simp only [calculate_scores, sortNat_idem]

theorem countFace_perm {l l2 : List Nat} (h : List.Perm l l2) :
    ∀ f, countFace l f = countFace l2 f := by
  intro f
  exact (h.filter (fun n => n == f)).length_eq

theorem length_sortNat (l : List Nat) : (sortNat l).length = l.length :=
  (sortNat_perm l).length_eq

theorem sum_sortNat (l : List Nat) : (sortNat l).sum = l.sum :=
  (sortNat_perm l).sum_eq

theorem mem_sortNat {x : Nat} {l : List Nat} : x ∈ sortNat l ↔ x ∈ l :=
  (sortNat_perm l).mem_iff

theorem hasFullHousePattern_perm {l l2 : List Nat} (h : List.Perm l l2) :
    hasFullHousePattern l = hasFullHousePattern l2 := by
  simp only [hasFullHousePattern, countFace_perm h]

theorem mem_r6 {x : Nat} : x ∈ r6 ↔ 1 ≤ x ∧ x ≤ 6 := by
  simp only [r6, List.mem_cons, List.not_mem_nil, or_false]
  omega

theorem countFace_le_length (l : List Nat) (f : Nat) : countFace l f ≤ l.length :=
  List.length_filter_le _ l

theorem sum_le_six_mul {l : List Nat} (h : ∀ x ∈ l, x ≤ 6) :
    l.sum ≤ 6 * l.length := by
  induction l with
  | nil => simp
  | cons a t ih =>
    have ha : a ≤ 6 := h a (List.mem_cons_self a t)
    have ht := ih (fun x hx => h x (List.mem_cons_of_mem a hx))
    simp only [List.sum_cons, List.length_cons]
    omega

/-! ## Full-house enumeration bridge -/

set_option maxRecDepth 4000 in
set_option maxHeartbeats 4000000 in
theorem checkC6All_true : checkC6All = true := by decide

theorem list_eq_five {l : List Nat} (h : l.length = 5) :
    ∃ a b c d e, l = [a, b, c, d, e] := by
  rcases l with _ | ⟨a, _ | ⟨b, _ | ⟨c, _ | ⟨d, _ | ⟨e, _ | ⟨f, t⟩⟩⟩⟩⟩⟩
  · simp at h
  · simp at h
  · simp at h
  · simp at h
  · simp at h
  · exact ⟨a, b, c, d, e, rfl⟩
  · simp at h

theorem checkC6_sorted {a b c d e : Nat}
    (ha : a ∈ r6) (hb : b ∈ r6) (hc : c ∈ r6) (hd : d ∈ r6) (he : e ∈ r6)
    (h1 : a ≤ b) (h2 : b ≤ c) (h3 : c ≤ d) (h4 : d ≤ e) :
    checkC6 [a, b, c, d, e] = true := by
  have h := checkC6All_true
  simp only [checkC6All, List.all_eq_true] at h
  have h := h a ha b hb c hc d hd e he
  simpa [h1, h2, h3, h4] using h

theorem checkC6_of_valid {dice : List Nat} (hlen : dice.length = 5)
    (hmem : ∀ x ∈ dice, 1 ≤ x ∧ x ≤ 6) : checkC6 dice = true := by
  have hperm := sortNat_perm dice
  have hsorted := sortNat_pairwise dice
  have hlen5 : (sortNat dice).length = 5 := by rw [length_sortNat, hlen]
  have hinv : checkC6 (sortNat dice) = checkC6 dice := by
    simp only [checkC6, calculate_scores_sortNat, hasFullHousePattern_perm hperm]
  rw [← hinv]
  obtain ⟨a, b, c, d, e, hs⟩ := list_eq_five hlen5
  have hmem5 : ∀ x ∈ sortNat dice, 1 ≤ x ∧ x ≤ 6 :=
    fun x hx => hmem x (hperm.mem_iff.mp hx)
  rw [hs] at hsorted hmem5
  rw [List.pairwise_cons, List.pairwise_cons, List.pairwise_cons,
    List.pairwise_cons] at hsorted
  rw [hs]
  refine checkC6_sorted ?_ ?_ ?_ ?_ ?_ ?_ ?_ ?_ ?_
  · exact mem_r6.mpr (hmem5 a (by simp))
  · exact mem_r6.mpr (hmem5 b (by simp))
  · exact mem_r6.mpr (hmem5 c (by simp))
  · exact mem_r6.mpr (hmem5 d (by simp))
  · exact mem_r6.mpr (hmem5 e (by simp))
  · exact hsorted.1 b (by simp)
  · exact hsorted.2.1 c (by simp)
  · exact hsorted.2.2.1 d (by simp)
  · exact hsorted.2.2.2.1 e (by simp)

theorem countFace_pos_mem {dice : List Nat} {f : Nat}
    (h : 0 < countFace dice f) : f ∈ dice := by
  rw [countFace] at h
  have hne : dice.filter (fun n => n == f) ≠ [] := by
    intro hnil
    rw [hnil] at h
    simp at h
  obtain ⟨y, hy⟩ := List.exists_mem_of_ne_nil _ hne
  obtain ⟨hyd, hyf⟩ := List.mem_filter.mp hy
  have : y = f := by simpa using hyf
  rwa [this] at hyd

theorem hasFullHousePattern_iff {dice : List Nat}
    (hmem : ∀ x ∈ dice, 1 ≤ x ∧ x ≤ 6) :
    hasFullHousePattern dice = true ↔
      ∃ f g, f ≠ g ∧ countFace dice f = 3 ∧ countFace dice g = 2 := by
  constructor
  · intro h
    simp only [hasFullHousePattern, List.any_eq_true] at h
    obtain ⟨f, hf, g, hg, hfg⟩ := h
    rw [Bool.and_eq_true, Bool.and_eq_true] at hfg
    obtain ⟨⟨hne, h3⟩, h2⟩ := hfg
    exact ⟨f, g, by simpa using hne, by simpa using h3, by simpa using h2⟩
  · rintro ⟨f, g, hne, h3, h2⟩
    have hf6 : f ∈ r6 := mem_r6.mpr (hmem f (countFace_pos_mem (by omega)))
    have hg6 : g ∈ r6 := mem_r6.mpr (hmem g (countFace_pos_mem (by omega)))
    simp only [hasFullHousePattern, List.any_eq_true]
    refine ⟨f, hf6, g, hg6, ?_⟩
    simp [hne, h3, h2]

/-! ## Claim theorems: ScoreEngine -/

/-- C5: `calculate_scores` maps each of the six concrete rolls of the
test-suite / spec scenarios to exactly the listed 13-value score vector
(index order Aces..Chance). -/
theorem claim_C5 :
    calculate_scores [1, 2, 3, 3, 3] = [1, 2, 9, 0, 0, 0, 12, 0, 0, 0, 0, 0, 12] ∧
    calculate_scores [1, 3, 3, 3, 3] = [1, 0, 12, 0, 0, 0, 13, 13, 0, 0, 0, 0, 13] ∧
    calculate_scores [4, 4, 3, 3, 3] = [0, 0, 9, 8, 0, 0, 17, 0, 25, 0, 0, 0, 17] ∧
    calculate_scores [1, 1, 1, 1, 1] = [5, 0, 0, 0, 0, 0, 5, 5, 0, 0, 0, 50, 5] ∧
    calculate_scores [3, 2, 1, 4, 3] = [1, 2, 6, 4, 0, 0, 0, 0, 0, 30, 0, 0, 13] ∧
    calculate_scores [3, 2, 1, 4, 5] = [1, 2, 3, 4, 5, 0, 0, 0, 0, 30, 40, 0, 15] := by
  refine ⟨?_, ?_, ?_, ?_, ?_, ?_⟩ <;> decide

/-- C6: for every roll of five dice in [1,6], the FullHouse entry (index 8)
of `calculate_scores` is 25 exactly when some face occurs three times and a
different face occurs twice, and it is 0 otherwise (so five of a kind and a
4+1 split both score 0 there). -/
theorem claim_C6 : ∀ dice : List Nat, dice.length = 5 →
    (∀ x ∈ dice, 1 ≤ x ∧ x ≤ 6) →
    (((calculate_scores dice).getD 8 0 = 25) ↔
      ∃ f g, f ≠ g ∧ countFace dice f = 3 ∧ countFace dice g = 2) ∧
    ((calculate_scores dice).getD 8 0 = 25 ∨ (calculate_scores dice).getD 8 0 = 0) := by
  intro dice hlen hmem
  have hcheck := checkC6_of_valid hlen hmem
  rw [checkC6, Bool.and_eq_true] at hcheck
  obtain ⟨h1, h2⟩ := hcheck
  have h1 : ((calculate_scores dice).getD 8 0 == 25) = hasFullHousePattern dice :=
    by simpa using h1
  constructor
  · rw [show ((calculate_scores dice).getD 8 0 = 25) ↔
        ((calculate_scores dice).getD 8 0 == 25) = true from by simp]
    rw [h1]
    exact hasFullHousePattern_iff hmem
  · rw [Bool.or_eq_true] at h2
    rcases h2 with h2 | h2
    · exact Or.inl (by simpa using h2)
    · exact Or.inr (by simpa using h2)

/-- C6 witness: the full-house test roll `[4,4,3,3,3]`. -/
theorem claim_C6_witness :
    (((calculate_scores [4, 4, 3, 3, 3]).getD 8 0 = 25) ↔
      ∃ f g, f ≠ g ∧ countFace [4, 4, 3, 3, 3] f = 3 ∧
        countFace [4, 4, 3, 3, 3] g = 2) ∧
    ((calculate_scores [4, 4, 3, 3, 3]).getD 8 0 = 25 ∨
      (calculate_scores [4, 4, 3, 3, 3]).getD 8 0 = 0) :=
  claim_C6 [4, 4, 3, 3, 3] (by decide) (by decide)

/-- C10: for every roll of five dice in [1,6] every category preview is at
most 50, and the intermediate `u8` quantities (five-dice sum, face counts,
count times face products) are bounded by 30, 5 and 30: every value of the
computation stays far below 256, so the `u8` arithmetic of the source
cannot wrap. -/
theorem claim_C10 : ∀ dice : List Nat, dice.length = 5 →
    (∀ x ∈ dice, 1 ≤ x ∧ x ≤ 6) →
    (∀ s ∈ calculate_scores dice, s ≤ 50) ∧
    (sortNat dice).sum ≤ 30 ∧
    (∀ f, countFace (sortNat dice) f ≤ 5) ∧
    (∀ i, i < 6 → countFace (sortNat dice) (i + 1) * (i + 1) ≤ 30) := by
  intro dice hlen hmem
  have hlen5 : (sortNat dice).length = 5 := by rw [length_sortNat, hlen]
  have hsum : (sortNat dice).sum ≤ 30 := by
    have h6 := sum_le_six_mul (l := sortNat dice)
      (fun x hx => (hmem x (mem_sortNat.mp hx)).2)
    omega
  have hcount : ∀ f, countFace (sortNat dice) f ≤ 5 := by
    intro f
    have := countFace_le_length (sortNat dice) f
    omega
  have hupper : ∀ i, i < 6 → countFace (sortNat dice) (i + 1) * (i + 1) ≤ 30 := by
    intro i hi
    calc countFace (sortNat dice) (i + 1) * (i + 1)
        ≤ 5 * (i + 1) := Nat.mul_le_mul_right _ (hcount _)
      _ ≤ 5 * 6 := Nat.mul_le_mul_left _ (by omega)
      _ = 30 := rfl
  refine ⟨?_, hsum, hcount, hupper⟩
  intro s hs
  simp only [calculate_scores, List.mem_append, List.mem_map, List.mem_range,
    List.mem_cons, List.not_mem_nil, or_false] at hs
  rcases hs with ⟨i, hi, rfl⟩ | rfl | rfl | rfl | rfl | rfl | rfl | rfl
  · exact le_trans (hupper i hi) (by omega)
  · split
    · omega
    · omega
  · split
    · omega
    · omega
  · split
    · omega
    · omega
  · split
    · omega
    · omega
  · split
    · omega
    · omega
  · split
    · omega
    · omega
  · omega

/-- C10 witness: the large-straight test roll `[3,2,1,4,5]`. -/
theorem claim_C10_witness :
    (∀ s ∈ calculate_scores [3, 2, 1, 4, 5], s ≤ 50) ∧
    (sortNat [3, 2, 1, 4, 5]).sum ≤ 30 ∧
    (∀ f, countFace (sortNat [3, 2, 1, 4, 5]) f ≤ 5) ∧
    (∀ i, i < 6 → countFace (sortNat [3, 2, 1, 4, 5]) (i + 1) * (i + 1) ≤ 30) :=
  claim_C10 [3, 2, 1, 4, 5] (by decide) (by decide)

/-! ## ScoreBook lemmas -/

theorem add_score_scores (p : PlayerData) (i s : Nat) :
    (p.add_score i s).combinations_scores = p.combinations_scores.set i (s % 256) := by
  rw [PlayerData.add_score]
  split <;> rfl

theorem add_score_used (p : PlayerData) (i s : Nat) :
    (p.add_score i s).combinations_used = p.combinations_used.set i true := by
  rw [PlayerData.add_score]
  split <;> rfl

theorem add_score_upper_sum (p : PlayerData) (i s : Nat) :
    (p.add_score i s).upper_sum =
      ((((p.combinations_scores.set i (s % 256)).take 6).sum % 256 : Nat) : Int) := by
  rw [PlayerData.upper_sum, add_score_scores]

theorem add_score_bonus_iff (p : PlayerData) (i s : Nat) :
    (p.add_score i s).got_upper_bonus = true ↔
      (p.got_upper_bonus = true ∨
        (i ≤ 5 ∧
          63 ≤ ((((p.combinations_scores.set i (s % 256)).take 6).sum % 256 : Nat) : Int))) := by
  rw [PlayerData.add_score]
  split
  · rename_i h
    simp only [true_iff]
    exact Or.inr ⟨h.2.1, h.2.2⟩
  · rename_i h
    show p.got_upper_bonus = true ↔ _
    constructor
    · exact fun hb => Or.inl hb
    · rintro (hb | hx)
      · exact hb
      · by_contra hb
        have hb2 : p.got_upper_bonus = false := by
          cases hg : p.got_upper_bonus
          · rfl
          · exact absurd hg hb
        exact h ⟨hb2, hx.1, hx.2⟩

theorem add_score_score (p : PlayerData) (i s : Nat) :
    (p.add_score i s).score = p.score + ((s % 256 : Nat) : Int) +
      (if p.got_upper_bonus = false ∧ i ≤ 5 ∧
          63 ≤ ((((p.combinations_scores.set i (s % 256)).take 6).sum % 256 : Nat) : Int)
        then 35 else 0) := by
  rw [PlayerData.add_score]
  split
  · rename_i h
    have hc : p.got_upper_bonus = false ∧ i ≤ 5 ∧
        63 ≤ ((((p.combinations_scores.set i (s % 256)).take 6).sum % 256 : Nat) : Int) := h
    rw [if_pos hc]
  · rename_i h
    have hc : ¬(p.got_upper_bonus = false ∧ i ≤ 5 ∧
        63 ≤ ((((p.combinations_scores.set i (s % 256)).take 6).sum % 256 : Nat) : Int)) := h
    rw [if_neg hc]
    show p.score + _ = p.score + _ + 0
    ring

theorem add_score_bonus_mono (p : PlayerData) (i s : Nat)
    (h : p.got_upper_bonus = true) : (p.add_score i s).got_upper_bonus = true :=
  (add_score_bonus_iff p i s).mpr (Or.inl h)

theorem commitAll_cons (p : PlayerData) (op : Nat × Nat) (t : List (Nat × Nat)) :
    commitAll p (op :: t) = commitAll (p.add_score op.1 op.2) t := rfl

theorem commitAll_bonus_mono (p : PlayerData) (ops : List (Nat × Nat))
    (h : p.got_upper_bonus = true) : (commitAll p ops).got_upper_bonus = true := by
  induction ops generalizing p with
  | nil => exact h
  | cons op t ih => exact ih _ (add_score_bonus_mono p op.1 op.2 h)

theorem add_score_transition (p : PlayerData) (i s : Nat) :
    (p.add_score i s).score = p.score + ((s % 256 : Nat) : Int) +
      (if (p.add_score i s).got_upper_bonus = true ∧ p.got_upper_bonus = false
        then 35 else 0) := by
  rw [add_score_score]
  congr 1
  by_cases hb : p.got_upper_bonus = false
  · by_cases hx : i ≤ 5 ∧
        63 ≤ ((((p.combinations_scores.set i (s % 256)).take 6).sum % 256 : Nat) : Int)
    · rw [if_pos ⟨hb, hx.1, hx.2⟩,
        if_pos ⟨(add_score_bonus_iff p i s).mpr (Or.inr hx), hb⟩]
    · have hflag : (p.add_score i s).got_upper_bonus ≠ true := by
        intro hc
        rcases (add_score_bonus_iff p i s).mp hc with hc | hc
        · rw [hb] at hc
          cases hc
        · exact hx hc
      rw [if_neg (fun hc => hx ⟨hc.2.1, hc.2.2⟩),
        if_neg (fun hc => hflag hc.1)]
  · have hb2 : p.got_upper_bonus = true := by
      cases hg : p.got_upper_bonus
      · exact absurd hg hb
      · rfl
    rw [if_neg (fun hc => hb hc.1), if_neg (fun hc => by rw [hb2] at hc; cases hc.2)]

theorem commitAll_score (p : PlayerData) (ops : List (Nat × Nat)) :
    (commitAll p ops).score = p.score +
      ((ops.map (fun op => ((op.2 % 256 : Nat) : Int))).sum) +
      (if (commitAll p ops).got_upper_bonus = true ∧ p.got_upper_bonus = false
        then 35 else 0) := by
  induction ops generalizing p with
  | nil =>
    cases hp : p.got_upper_bonus <;> simp [commitAll, hp]
  | cons op t ih =>
    rw [commitAll_cons]
    rw [ih (p.add_score op.1 op.2)]
    rw [add_score_transition]
    have hmono1 : p.got_upper_bonus = true →
        (p.add_score op.1 op.2).got_upper_bonus = true :=
      add_score_bonus_mono p op.1 op.2
    have hmono2 : (p.add_score op.1 op.2).got_upper_bonus = true →
        (commitAll (p.add_score op.1 op.2) t).got_upper_bonus = true :=
      commitAll_bonus_mono _ t
    simp only [List.map_cons, List.sum_cons]
    cases hp : p.got_upper_bonus <;>
      cases hq : (p.add_score op.1 op.2).got_upper_bonus <;>
      cases hf : (commitAll (p.add_score op.1 op.2) t).got_upper_bonus <;>
      simp_all <;> ring

/-! ## Claim theorems: ScoreBook -/

/-- C1 counterexample: `add_score` does not reject a commit to a used
category.  After committing 6 points to Aces, Aces is used; a second
`add_score` call on Aces goes through and adds the 6 points to the
cumulative total again, contradicting the claim that the call cannot
re-add the score. -/
theorem claim_C1_counterexample :
    (PlayerData.default.add_score 0 6).has_used 0 = true ∧
    ((PlayerData.default.add_score 0 6).add_score 0 6).score =
      (PlayerData.default.add_score 0 6).score + 6 := by decide

/-- C1 amended: `add_score` performs no used-flag check.  Called on an
already-used category it keeps the flag set, overwrites the stored
category score, and adds the committed score to the cumulative total
again (plus the 35 bonus if that commit triggers it); double-commit
prevention is entirely the `has_used` guards at the call sites. -/
theorem claim_C1 : ∀ (p : PlayerData) (i s : Nat), i < 13 →
    p.combinations_used.length = 13 → p.has_used i = true →
    (p.add_score i s).has_used i = true ∧
    (p.add_score i s).combinations_scores = p.combinations_scores.set i (s % 256) ∧
    ((p.add_score i s).score = p.score + ((s % 256 : Nat) : Int) ∨
      (p.add_score i s).score = p.score + ((s % 256 : Nat) : Int) + 35) := by
  intro p i s hi hlen _hused
  refine ⟨?_, add_score_scores p i s, ?_⟩
  · rw [PlayerData.has_used, add_score_used]
    rw [List.getD_eq_getElem?_getD]
    rw [List.getElem?_set_self (by omega)]
    rfl
  · rw [add_score_score]
    split
    · exact Or.inr rfl
    · exact Or.inl (by ring)

/-- C1 witness: a book with Aces already used, committed again. -/
theorem claim_C1_witness :
    ((PlayerData.default.add_score 0 6).add_score 0 4).has_used 0 = true ∧
    ((PlayerData.default.add_score 0 6).add_score 0 4).combinations_scores =
      (PlayerData.default.add_score 0 6).combinations_scores.set 0 (4 % 256) ∧
    (((PlayerData.default.add_score 0 6).add_score 0 4).score =
        (PlayerData.default.add_score 0 6).score + ((4 % 256 : Nat) : Int) ∨
      ((PlayerData.default.add_score 0 6).add_score 0 4).score =
        (PlayerData.default.add_score 0 6).score + ((4 % 256 : Nat) : Int) + 35) :=
  claim_C1 (PlayerData.default.add_score 0 6) 0 4 (by decide) (by decide) (by decide)

/-- C4: over any sequence of commits with valid category indices, the
cumulative total is the start total plus all committed scores plus the
35 bonus at most once (exactly when the bonus flag transitioned); the
bonus flag never reverts; and a single commit sets the flag exactly when
it was not yet set, the category is upper-section (index at most 5) and
the upper sum after the commit is at least 63. -/
theorem claim_C4 : ∀ (p : PlayerData) (ops : List (Nat × Nat)),
    (∀ op ∈ ops, op.1 < 13) →
    ((commitAll p ops).score = p.score +
      ((ops.map (fun op => ((op.2 % 256 : Nat) : Int))).sum) +
      (if (commitAll p ops).got_upper_bonus = true ∧ p.got_upper_bonus = false
        then 35 else 0)) ∧
    (p.got_upper_bonus = true → (commitAll p ops).got_upper_bonus = true) ∧
    (∀ (q : PlayerData) (i s : Nat), i < 13 →
      ((q.add_score i s).got_upper_bonus = true ↔
        (q.got_upper_bonus = true ∨ (i ≤ 5 ∧ 63 ≤ (q.add_score i s).upper_sum)))) := by
  intro p ops _hvalid
  refine ⟨commitAll_score p ops, commitAll_bonus_mono p ops, ?_⟩
  intro q i s _hi
  rw [add_score_upper_sum]
  exact add_score_bonus_iff q i s

/-- C4 witness: five upper commits reaching 75 in the upper section award
the flat 35 exactly once. -/
theorem claim_C4_witness :
    ((commitAll PlayerData.default [(0, 5), (1, 10), (2, 15), (3, 20), (4, 25)]).score =
      PlayerData.default.score +
      (([(0, 5), (1, 10), (2, 15), (3, 20), (4, 25)].map
        (fun op => ((op.2 % 256 : Nat) : Int))).sum) +
      (if (commitAll PlayerData.default
            [(0, 5), (1, 10), (2, 15), (3, 20), (4, 25)]).got_upper_bonus = true ∧
          PlayerData.default.got_upper_bonus = false
        then 35 else 0)) ∧
    (PlayerData.default.got_upper_bonus = true →
      (commitAll PlayerData.default
        [(0, 5), (1, 10), (2, 15), (3, 20), (4, 25)]).got_upper_bonus = true) ∧
    (∀ (q : PlayerData) (i s : Nat), i < 13 →
      ((q.add_score i s).got_upper_bonus = true ↔
        (q.got_upper_bonus = true ∨ (i ≤ 5 ∧ 63 ≤ (q.add_score i s).upper_sum)))) :=
  claim_C4 PlayerData.default [(0, 5), (1, 10), (2, 15), (3, 20), (4, 25)] (by decide)

/-! ## Claim theorems: TurnCycle -/

/-- C7: starting from `Human(1)`, the only transitions are
`Human(n) -> AI(n)` and `AI(n) -> Human(n+1)` (the round counter advances
only when control returns to the human), the players strictly alternate
along the unique trace, and the terminal test `n == 14` first holds after
26 commits, i.e. when the human is about to start round 14. -/
theorem claim_C7 :
    (∀ n, Turn.next ⟨.Human, n⟩ = ⟨.AI, n⟩) ∧
    (∀ n, Turn.next ⟨.AI, n⟩ = ⟨.Human, n + 1⟩) ∧
    turnAt 0 = ⟨.Human, 1⟩ ∧
    (∀ k, k < 26 → (turnAt k).isTerminal = false) ∧
    (turnAt 26).isTerminal = true ∧
    (∀ k, k ≤ 26 →
      (turnAt k).player = (if k % 2 = 0 then PlayerKind.Human else PlayerKind.AI)) := by
  refine ⟨fun n => rfl, fun n => rfl, rfl, ?_, by decide, ?_⟩
  · decide
  · decide

/-- C7 witness: the trace at commits 25 and 26. -/
theorem claim_C7_witness :
    Turn.next ⟨.Human, 3⟩ = ⟨.AI, 3⟩ ∧
    (turnAt 25).isTerminal = false ∧
    (turnAt 26).isTerminal = true ∧
    (turnAt 25).player = (if 25 % 2 = 0 then PlayerKind.Human else PlayerKind.AI) :=
  ⟨claim_C7.1 3, claim_C7.2.2.2.1 25 (by decide), claim_C7.2.2.2.2.1,
    claim_C7.2.2.2.2.2 25 (by decide)⟩

/-! ## AIPolicy lemmas -/

theorem unusedIdx_ge : ∀ (used : List Bool) (k : Nat), ∀ i ∈ unusedIdx k used, k ≤ i := by
  intro used
  induction used with
  | nil =>
    intro k i hi
    simp [unusedIdx] at hi
  | cons b rest ih =>
    intro k i hi
    rw [unusedIdx] at hi
    split at hi
    · have := ih (k + 1) i hi
      omega
    · rcases List.mem_cons.mp hi with rfl | hi
      · exact le_refl i
      · have := ih (k + 1) i hi
        omega

theorem unusedIdx_pairwise : ∀ (used : List Bool) (k : Nat),
    (unusedIdx k used).Pairwise (· < ·) := by
  intro used
  induction used with
  | nil =>
    intro k
    simp [unusedIdx]
  | cons b rest ih =>
    intro k
    rw [unusedIdx]
    split
    · exact ih (k + 1)
    · rw [List.pairwise_cons]
      refine ⟨?_, ih (k + 1)⟩
      intro j hj
      have := unusedIdx_ge rest (k + 1) j hj
      omega

theorem mem_unusedIdx : ∀ (used : List Bool) (k i : Nat),
    i ∈ unusedIdx k used ↔ (k ≤ i ∧ used[(i - k)]? = some false) := by
  intro used
  induction used with
  | nil =>
    intro k i
    simp [unusedIdx]
  | cons b rest ih =>
    intro k i
    rw [unusedIdx]
    split
    · rename_i hb
      rw [ih (k + 1) i]
      constructor
      · rintro ⟨hk, hget⟩
        refine ⟨by omega, ?_⟩
        rw [show i - k = (i - (k + 1)) + 1 by omega]
        simpa using hget
      · rintro ⟨hk, hget⟩
        by_cases hik : i = k
        · subst hik
          rw [Nat.sub_self] at hget
          rw [List.getElem?_cons_zero] at hget
          rw [hb] at hget
          cases hget
        · refine ⟨by omega, ?_⟩
          rw [show i - k = (i - (k + 1)) + 1 by omega] at hget
          simpa using hget
    · rename_i hb
      have hbf : b = false := by
        cases b
        · rfl
        · exact absurd rfl hb
      rw [List.mem_cons, ih (k + 1) i]
      constructor
      · rintro (rfl | ⟨hk, hget⟩)
        · refine ⟨le_refl i, ?_⟩
          rw [Nat.sub_self, List.getElem?_cons_zero, hbf]
        · refine ⟨by omega, ?_⟩
          rw [show i - k = (i - (k + 1)) + 1 by omega]
          simpa using hget
      · rintro ⟨hk, hget⟩
        by_cases hik : i = k
        · exact Or.inl hik
        · refine Or.inr ⟨by omega, ?_⟩
          rw [show i - k = (i - (k + 1)) + 1 by omega] at hget
          simpa using hget

theorem maxStep_some (key : Nat → Nat) (m x : Nat) :
    maxStep key (some m) x = if key m ≤ key x then some x else some m := rfl

theorem maxByKeyLast_go (key : Nat → Nat) :
    ∀ (l : List Nat) (m : Nat), (∀ x ∈ l, m < x) → l.Pairwise (· < ·) →
    ∃ j, l.foldl (maxStep key) (some m) = some j ∧
      (j = m ∨ j ∈ l) ∧
      (∀ i, (i = m ∨ i ∈ l) → key i ≤ key j ∧ (j < i → key i < key j)) := by
  intro l
  induction l with
  | nil =>
    intro m _ _
    refine ⟨m, rfl, Or.inl rfl, ?_⟩
    rintro i (rfl | hi)
    · exact ⟨le_refl _, fun h => absurd h (by omega)⟩
    · simp at hi
  | cons x t ih =>
    intro m hlt hpw
    rw [List.foldl_cons, maxStep_some]
    rw [List.pairwise_cons] at hpw
    have hmx : m < x := hlt x (List.mem_cons_self x t)
    by_cases hkey : key m ≤ key x
    · rw [if_pos hkey]
      obtain ⟨j, heq, hjmem, hmax⟩ := ih x hpw.1 hpw.2
      have hmj : m < j := by
        rcases hjmem with rfl | hj
        · exact hmx
        · exact lt_trans hmx (hpw.1 j hj)
      refine ⟨j, heq, ?_, ?_⟩
      · rcases hjmem with rfl | hj
        · exact Or.inr (List.mem_cons_self j t)
        · exact Or.inr (List.mem_cons_of_mem x hj)
      · rintro i (rfl | hi)
        · refine ⟨le_trans hkey (hmax x (Or.inl rfl)).1, ?_⟩
          intro hji
          exact absurd hji (by omega)
        · rcases List.mem_cons.mp hi with rfl | hi
          · exact hmax i (Or.inl rfl)
          · exact hmax i (Or.inr hi)
    · rw [if_neg hkey]
      have hkx : key x < key m := by omega
      obtain ⟨j, heq, hjmem, hmax⟩ :=
        ih m (fun y hy => lt_trans hmx (hpw.1 y hy)) hpw.2
      refine ⟨j, heq, ?_, ?_⟩
      · rcases hjmem with rfl | hj
        · exact Or.inl rfl
        · exact Or.inr (List.mem_cons_of_mem x hj)
      · rintro i (rfl | hi)
        · exact hmax i (Or.inl rfl)
        · rcases List.mem_cons.mp hi with rfl | hi
          · have hkm : key m ≤ key j := (hmax m (Or.inl rfl)).1
            exact ⟨by omega, fun _ => by omega⟩
          · exact hmax i (Or.inr hi)

theorem has_used_iff_getElem {p : PlayerData} {i : Nat}
    (hi : i < p.combinations_used.length) :
    p.has_used i = false ↔ p.combinations_used[i]? = some false := by
  rw [PlayerData.has_used, List.getD_eq_getElem?_getD, List.getElem?_eq_getElem hi]
  simp

/-! ## Claim theorems: AIPolicy -/

/-- C2 counterexample: on the roll `[1,2,3,3,3]` with a fresh book, both
ThreeOfAKind (index 6) and Chance (index 12) preview the maximal score 12
and are unused, yet `ai_choice` returns 12, not the lowest tied index 6:
Rust `max_by_key` keeps the last maximum, so ties break towards the
highest category index. -/
theorem claim_C2_counterexample :
    ai_choice PlayerData.default (calculate_scores [1, 2, 3, 3, 3]) = some 12 ∧
    (calculate_scores [1, 2, 3, 3, 3]).getD 6 0 = 12 ∧
    (calculate_scores [1, 2, 3, 3, 3]).getD 12 0 = 12 ∧
    PlayerData.default.has_used 6 = false ∧
    (12 : Nat) ≠ 6 := by decide

/-- C2 amended: with at least one unused category, `ai_choice` returns an
unused category whose previewed score is maximal among the unused ones,
and among tied maxima it returns the one with the HIGHEST category index
(every other tied unused category lies strictly below it). -/
theorem claim_C2 : ∀ (p : PlayerData) (scores : List Nat),
    p.combinations_used.length = 13 → scores.length = 13 →
    (∃ i, i < 13 ∧ p.has_used i = false) →
    ∃ j, ai_choice p scores = some j ∧ j < 13 ∧ p.has_used j = false ∧
      (∀ i, i < 13 → p.has_used i = false →
        scores.getD i 0 ≤ scores.getD j 0 ∧
        (j < i → scores.getD i 0 < scores.getD j 0)) := by
  intro p scores hlen _hslen ⟨i0, hi0, hu0⟩
  have hmem : ∀ i, i ∈ unusedIdx 0 p.combinations_used ↔
      (i < 13 ∧ p.has_used i = false) := by
    intro i
    rw [mem_unusedIdx p.combinations_used 0 i, Nat.sub_zero]
    constructor
    · rintro ⟨_, hget⟩
      have hilt : i < 13 := by
        obtain ⟨h, _⟩ := List.getElem?_eq_some_iff.mp hget
        omega
      exact ⟨hilt, (has_used_iff_getElem (by omega)).mpr hget⟩
    · rintro ⟨hilt, hused⟩
      exact ⟨Nat.zero_le i, (has_used_iff_getElem (by omega)).mp hused⟩
  have hpw := unusedIdx_pairwise p.combinations_used 0
  rcases hL : unusedIdx 0 p.combinations_used with _ | ⟨x, t⟩
  · exact absurd ((hmem i0).mpr ⟨hi0, hu0⟩) (by rw [hL]; simp)
  · rw [hL] at hpw
    rw [List.pairwise_cons] at hpw
    obtain ⟨j, heq, hjmem, hmax⟩ :=
      maxByKeyLast_go (fun i => scores.getD i 0) t x hpw.1 hpw.2
    have hjL : j ∈ unusedIdx 0 p.combinations_used := by
      rw [hL]
      rcases hjmem with rfl | hj
      · exact List.mem_cons_self j t
      · exact List.mem_cons_of_mem x hj
    have hjprop := (hmem j).mp hjL
    refine ⟨j, ?_, hjprop.1, hjprop.2, ?_⟩
    · rw [ai_choice, maxByKeyLast, hL, List.foldl_cons]
      exact heq
    · intro i hilt hused
      have hiL : i ∈ unusedIdx 0 p.combinations_used := (hmem i).mpr ⟨hilt, hused⟩
      rw [hL, List.mem_cons] at hiL
      rcases hiL with rfl | hi
      · exact hmax i (Or.inl rfl)
      · exact hmax i (Or.inr hi)

/-- C2 witness: the tie roll `[1,2,3,3,3]` on a fresh book. -/
theorem claim_C2_witness :
    ∃ j, ai_choice PlayerData.default (calculate_scores [1, 2, 3, 3, 3]) = some j ∧
      j < 13 ∧ PlayerData.default.has_used j = false ∧
      (∀ i, i < 13 → PlayerData.default.has_used i = false →
        (calculate_scores [1, 2, 3, 3, 3]).getD i 0 ≤
          (calculate_scores [1, 2, 3, 3, 3]).getD j 0 ∧
        (j < i → (calculate_scores [1, 2, 3, 3, 3]).getD i 0 <
          (calculate_scores [1, 2, 3, 3, 3]).getD j 0)) :=
  claim_C2 PlayerData.default (calculate_scores [1, 2, 3, 3, 3])
    (by decide) (by decide) ⟨0, by decide, by decide⟩

/-! ## RankingStore insertion lemmas -/

theorem cmpInt_cases (a b : Int) :
    (cmpInt a b = .lt ∧ a < b) ∨ (cmpInt a b = .gt ∧ b < a) ∨
    (cmpInt a b = .eq ∧ a = b) := by
  rw [cmpInt]
  split
  · exact Or.inl ⟨rfl, by assumption⟩
  · split
    · exact Or.inr (Or.inl ⟨rfl, by assumption⟩)
    · rename_i h1 h2
      exact Or.inr (Or.inr ⟨rfl, by omega⟩)

theorem bsearchFuel_spec (s : Int) (sc : Nat → Int) (len : Nat)
    (hmono : ∀ i j, i ≤ j → j < len → sc j ≤ sc i) :
    ∀ (fuel left right : Nat), left ≤ right → right ≤ len → right - left ≤ fuel →
    (∀ i, i < left → s ≤ sc i) →
    (∀ i, right ≤ i → i < len → sc i ≤ s) →
    ∃ v, (bsearchFuel (fun i => cmpInt s (sc i)) fuel left right = .inl v ∨
          bsearchFuel (fun i => cmpInt s (sc i)) fuel left right = .inr v) ∧
      v ≤ len ∧
      (∀ i, i < v → s ≤ sc i) ∧
      (∀ i, v ≤ i → i < len → sc i ≤ s) := by
  intro fuel
  induction fuel with
  | zero =>
    intro left right hlr hrl hfuel hL hR
    refine ⟨left, Or.inr rfl, by omega, hL, ?_⟩
    intro i hi hilen
    exact hR i (by omega) hilen
  | succ f ih =>
    intro left right hlr hrl hfuel hL hR
    by_cases hlt : left < right
    · rw [show bsearchFuel (fun i => cmpInt s (sc i)) (f + 1) left right =
          (if left < right then
            match cmpInt s (sc (left + (right - left) / 2)) with
            | .lt => bsearchFuel (fun i => cmpInt s (sc i)) f
                ((left + (right - left) / 2) + 1) right
            | .gt => bsearchFuel (fun i => cmpInt s (sc i)) f
                left (left + (right - left) / 2)
            | .eq => .inl (left + (right - left) / 2)
          else .inr left) from rfl]
      rw [if_pos hlt]
      have hmid1 : left ≤ left + (right - left) / 2 := by omega
      have hmid2 : left + (right - left) / 2 < right := by omega
      rcases cmpInt_cases s (sc (left + (right - left) / 2)) with
        ⟨hc, hv⟩ | ⟨hc, hv⟩ | ⟨hc, hv⟩ <;> rw [hc]
      · apply ih ((left + (right - left) / 2) + 1) right (by omega) hrl (by omega) ?_ hR
        intro i hi
        by_cases hil : i < left
        · exact hL i hil
        · have := hmono i (left + (right - left) / 2) (by omega) (by omega)
          omega
      · apply ih left (left + (right - left) / 2) hmid1 (by omega) (by omega) hL ?_
        intro i hi hilen
        have := hmono (left + (right - left) / 2) i hi hilen
        omega
      · refine ⟨left + (right - left) / 2, Or.inl rfl, by omega, ?_, ?_⟩
        · intro i hi
          by_cases hil : i < left
          · exact hL i hil
          · have := hmono i (left + (right - left) / 2) (by omega) (by omega)
            omega
        · intro i hi hilen
          have := hmono (left + (right - left) / 2) i hi hilen
          omega
    · rw [show bsearchFuel (fun i => cmpInt s (sc i)) (f + 1) left right =
          (if left < right then
            match cmpInt s (sc (left + (right - left) / 2)) with
            | .lt => bsearchFuel (fun i => cmpInt s (sc i)) f
                ((left + (right - left) / 2) + 1) right
            | .gt => bsearchFuel (fun i => cmpInt s (sc i)) f
                left (left + (right - left) / 2)
            | .eq => .inl (left + (right - left) / 2)
          else .inr left) from rfl]
      rw [if_neg hlt]
      refine ⟨left, Or.inr rfl, by omega, hL, ?_⟩
      intro i hi hilen
      exact hR i (by omega) hilen

theorem getD_eq_getElem_hs {hs : List Highscore} {i : Nat} (h : i < hs.length) :
    hs.getD i dummyHS = hs[i] := by
  rw [List.getD_eq_getElem?_getD, List.getElem?_eq_getElem h]
  rfl

theorem sortedDesc_mono {hs : List Highscore} (hsorted : sortedDesc hs) :
    ∀ i j, i ≤ j → j < hs.length →
      (hs.getD j dummyHS).score ≤ (hs.getD i dummyHS).score := by
  intro i j hij hj
  by_cases hieq : i = j
  · subst hieq
    exact le_refl _
  · rw [getD_eq_getElem_hs hj, getD_eq_getElem_hs (by omega : i < hs.length)]
    exact List.pairwise_iff_getElem.mp hsorted i j (by omega) hj (by omega)

theorem insertPos_spec (hs : List Highscore) (s : Int) (hsorted : sortedDesc hs) :
    insertPos hs s ≤ hs.length ∧
    (∀ i, i < insertPos hs s → s ≤ (hs.getD i dummyHS).score) ∧
    (∀ i, insertPos hs s ≤ i → i < hs.length → (hs.getD i dummyHS).score ≤ s) := by
  obtain ⟨v, hv, hvlen, hvL, hvR⟩ :=
    bsearchFuel_spec s (fun i => (hs.getD i dummyHS).score) hs.length
      (sortedDesc_mono hsorted) hs.length 0 hs.length (by omega) (le_refl _)
      (by omega) (by intro i hi; omega)
      (by intro i h1 h2; exact absurd h2 (by omega))
  rw [insertPos]
  rcases hv with hv | hv <;> rw [hv] <;> exact ⟨hvlen, hvL, hvR⟩

theorem insertAt_sortedDesc {hs : List Highscore} {h : Highscore} {pos : Nat}
    (hsorted : sortedDesc hs) (hpos : pos ≤ hs.length)
    (hL : ∀ i, i < pos → h.score ≤ (hs.getD i dummyHS).score)
    (hR : ∀ i, pos ≤ i → i < hs.length → (hs.getD i dummyHS).score ≤ h.score) :
    sortedDesc (insertAt pos h hs) := by
  rw [sortedDesc, insertAt, List.pairwise_append]
  refine ⟨List.Pairwise.sublist (List.take_sublist pos hs) hsorted, ?_, ?_⟩
  · rw [List.pairwise_cons]
    refine ⟨?_, List.Pairwise.sublist (List.drop_sublist pos hs) hsorted⟩
    intro b hb
    obtain ⟨k, hk, rfl⟩ := List.mem_iff_getElem.mp hb
    rw [List.getElem_drop] at *
    have hlen : pos + k < hs.length := by
      have := hk
      rw [List.length_drop] at this
      omega
    rw [← getD_eq_getElem_hs hlen]
    exact hR (pos + k) (by omega) hlen
  · intro a ha b hb
    obtain ⟨i, hi, rfl⟩ := List.mem_iff_getElem.mp ha
    have hipos : i < pos := by
      have := hi
      rw [List.length_take] at this
      omega
    have hilen : i < hs.length := by omega
    rw [List.getElem_take, ← getD_eq_getElem_hs hilen]
    rcases List.mem_cons.mp hb with rfl | hb
    · exact hL i hipos
    · obtain ⟨k, hk, rfl⟩ := List.mem_iff_getElem.mp hb
      rw [List.getElem_drop]
      have hklen : pos + k < hs.length := by
        have := hk
        rw [List.length_drop] at this
        omega
      rw [← getD_eq_getElem_hs hklen]
      exact le_trans (hR (pos + k) (by omega) hklen) (hL i hipos)

/-! ## Claim theorems: RankingStore insertion -/

/-- C3 counterexample: inserting a score of 10 into three entries that all
already have score 10, the binary search returns position 1, not the
position 3 demanded by the claim (first index with a strictly smaller
score): the new entry lands BEFORE two existing equal-score entries. -/
theorem claim_C3_counterexample :
    insertPos [⟨[97], 10⟩, ⟨[98], 10⟩, ⟨[99], 10⟩] 10 = 1 ∧
    insertHighscore [⟨[97], 10⟩, ⟨[98], 10⟩, ⟨[99], 10⟩] ⟨[120], 10⟩ =
      [⟨[97], 10⟩, ⟨[120], 10⟩, ⟨[98], 10⟩, ⟨[99], 10⟩] ∧
    (1 : Nat) ≠ 3 := by decide

/-- C3 amended: on a non-increasing ranking the binary-search insertion
position has every earlier entry scoring at least the new score and every
later entry scoring at most it, and inserting there keeps the sequence
non-increasing; but for tied scores the position is whatever index the
binary search probes (`Ok(mid)`), NOT necessarily after all existing
equal-score entries. -/
theorem claim_C3 : ∀ (hs : List Highscore) (h : Highscore), sortedDesc hs →
    insertPos hs h.score ≤ hs.length ∧
    (∀ i, i < insertPos hs h.score → h.score ≤ (hs.getD i dummyHS).score) ∧
    (∀ i, insertPos hs h.score ≤ i → i < hs.length →
      (hs.getD i dummyHS).score ≤ h.score) ∧
    sortedDesc (insertHighscore hs h) := by
  intro hs h hsorted
  obtain ⟨hlen, hL, hR⟩ := insertPos_spec hs h.score hsorted
  exact ⟨hlen, hL, hR, insertAt_sortedDesc hsorted hlen hL hR⟩

/-- C3 witness: inserting score 15 into the sorted list [20, 10]. -/
theorem claim_C3_witness :
    insertPos [⟨[97], 20⟩, ⟨[98], 10⟩] (15 : Int) ≤
      ([⟨[97], 20⟩, ⟨[98], 10⟩] : List Highscore).length ∧
    (∀ i, i < insertPos [⟨[97], 20⟩, ⟨[98], 10⟩] (15 : Int) →
      (15 : Int) ≤ (([⟨[97], 20⟩, ⟨[98], 10⟩] : List Highscore).getD i dummyHS).score) ∧
    (∀ i, insertPos [⟨[97], 20⟩, ⟨[98], 10⟩] (15 : Int) ≤ i →
      i < ([⟨[97], 20⟩, ⟨[98], 10⟩] : List Highscore).length →
      (([⟨[97], 20⟩, ⟨[98], 10⟩] : List Highscore).getD i dummyHS).score ≤ (15 : Int)) ∧
    sortedDesc (insertHighscore [⟨[97], 20⟩, ⟨[98], 10⟩] ⟨[99], 15⟩) :=
  claim_C3 [⟨[97], 20⟩, ⟨[98], 10⟩] ⟨[99], 15⟩
    (by unfold sortedDesc
        decide)

/-! ## Decimal rendering and parsing lemmas -/

theorem natDigitsRevAux_fuel : ∀ (n f1 f2 : Nat), n ≤ f1 → n ≤ f2 →
    natDigitsRevAux f1 n = natDigitsRevAux f2 n := by
  intro n
  induction n using Nat.strong_induction_on with
  | _ n ih =>
    intro f1 f2 h1 h2
    match n, h1, h2 with
    | 0, _, _ => simp [natDigitsRevAux]
    | m + 1, h1, h2 =>
      match f1, f2, h1, h2 with
      | g1 + 1, g2 + 1, _, _ =>
        show (48 + (m + 1) % 10) :: natDigitsRevAux g1 ((m + 1) / 10) =
          (48 + (m + 1) % 10) :: natDigitsRevAux g2 ((m + 1) / 10)
        congr 1
        exact ih ((m + 1) / 10) (by omega) g1 g2 (by omega) (by omega)

theorem natDigitsRev_succ (n : Nat) (h : n ≠ 0) :
    natDigitsRev n = (48 + n % 10) :: natDigitsRev (n / 10) := by
  match n, h with
  | m + 1, _ =>
    rw [natDigitsRev, natDigitsRev]
    show (48 + (m + 1) % 10) :: natDigitsRevAux m ((m + 1) / 10) = _
    congr 1
    exact natDigitsRevAux_fuel ((m + 1) / 10) m ((m + 1) / 10) (by omega) (le_refl _)

theorem natDigitsRev_chars : ∀ n, ∀ c ∈ natDigitsRev n, 48 ≤ c ∧ c ≤ 57 := by
  intro n
  induction n using Nat.strong_induction_on with
  | _ n ih =>
    intro c hc
    by_cases h0 : n = 0
    · subst h0
      simp [natDigitsRev, natDigitsRevAux] at hc
    · rw [natDigitsRev_succ n h0] at hc
      rcases List.mem_cons.mp hc with rfl | hc
      · have := Nat.mod_lt n (by omega : 0 < 10)
        omega
      · exact ih (n / 10) (by omega) c hc

theorem natDigitsRev_ne_nil {n : Nat} (h : n ≠ 0) : natDigitsRev n ≠ [] := by
  rw [natDigitsRev_succ n h]
  simp

theorem natToStr_chars (n : Nat) : ∀ c ∈ natToStr n, 48 ≤ c ∧ c ≤ 57 := by
  rw [natToStr]
  split
  · intro c hc
    simp at hc
    omega
  · intro c hc
    exact natDigitsRev_chars n c (List.mem_reverse.mp hc)

theorem natToStr_ne_nil (n : Nat) : natToStr n ≠ [] := by
  rw [natToStr]
  split
  · simp
  · rename_i h
    simpa using natDigitsRev_ne_nil h

theorem natToStr_getLast (n : Nat) :
    ∃ c, (natToStr n).getLast? = some c ∧ 48 ≤ c ∧ c ≤ 57 := by
  rw [natToStr]
  split
  · exact ⟨48, rfl, by omega, by omega⟩
  · rename_i h
    rw [natDigitsRev_succ n h, List.reverse_cons, List.getLast?_concat]
    have := Nat.mod_lt n (by omega : 0 < 10)
    exact ⟨48 + n % 10, rfl, by omega, by omega⟩

theorem intToStr_chars (i : Int) :
    ∀ c ∈ intToStr i, c = 45 ∨ (48 ≤ c ∧ c ≤ 57) := by
  rw [intToStr]
  split
  · intro c hc
    rcases List.mem_cons.mp hc with rfl | hc
    · exact Or.inl rfl
    · exact Or.inr (natToStr_chars _ c hc)
  · intro c hc
    exact Or.inr (natToStr_chars _ c hc)

theorem intToStr_ne_nil (i : Int) : intToStr i ≠ [] := by
  rw [intToStr]
  split
  · simp
  · exact natToStr_ne_nil _

theorem intToStr_getLast (i : Int) :
    ∃ c, (intToStr i).getLast? = some c ∧ 48 ≤ c ∧ c ≤ 57 := by
  rw [intToStr]
  split
  · rw [show (45 : Nat) :: natToStr i.natAbs = [45] ++ natToStr i.natAbs from rfl,
      List.getLast?_append_of_ne_nil _ (natToStr_ne_nil _)]
    exact natToStr_getLast _
  · exact natToStr_getLast _

theorem parseDigitsAux_append (xs : List Nat) : ∀ (acc : Nat) (ys : List Nat),
    parseDigitsAux acc (xs ++ ys) =
      (parseDigitsAux acc xs).bind (fun a => parseDigitsAux a ys) := by
  induction xs with
  | nil =>
    intro acc ys
    rfl
  | cons c cs ih =>
    intro acc ys
    rw [List.cons_append]
    show (if 48 ≤ c ∧ c ≤ 57 then parseDigitsAux (10 * acc + (c - 48)) (cs ++ ys)
        else none) = _
    split
    · rw [ih]
      rename_i h
      rw [show parseDigitsAux acc (c :: cs) =
        parseDigitsAux (10 * acc + (c - 48)) cs from by
          show (if 48 ≤ c ∧ c ≤ 57 then _ else none) = _
          rw [if_pos h]]
    · rename_i h
      rw [show parseDigitsAux acc (c :: cs) = none from by
        show (if 48 ≤ c ∧ c ≤ 57 then _ else none) = none
        rw [if_neg h]]
      rfl

theorem parseDigitsAux_digits (n : Nat) : ∀ acc,
    parseDigitsAux acc ((natDigitsRev n).reverse) =
      some (acc * 10 ^ (natDigitsRev n).length + n) := by
  induction n using Nat.strong_induction_on with
  | _ n ih =>
    intro acc
    by_cases h0 : n = 0
    · subst h0
      show parseDigitsAux acc ((natDigitsRevAux 0 0).reverse) = _
      simp [natDigitsRevAux, parseDigitsAux, natDigitsRev]
    · rw [natDigitsRev_succ n h0, List.reverse_cons, parseDigitsAux_append,
        ih (n / 10) (by omega) acc, Option.some_bind]
      have hd : 48 ≤ 48 + n % 10 ∧ 48 + n % 10 ≤ 57 := by
        have := Nat.mod_lt n (by omega : 0 < 10)
        omega
      show (if 48 ≤ 48 + n % 10 ∧ 48 + n % 10 ≤ 57 then
          parseDigitsAux (10 * (acc * 10 ^ (natDigitsRev (n / 10)).length + n / 10) +
            (48 + n % 10 - 48)) [] else none) = _
      rw [if_pos hd]
      show some _ = some _
      congr 1
      rw [List.length_cons, pow_succ, ← mul_assoc]
      generalize acc * 10 ^ (natDigitsRev (n / 10)).length = B
      omega

theorem parseNatDigits_natToStr (n : Nat) : parseNatDigits (natToStr n) = some n := by
  by_cases h0 : n = 0
  · subst h0
    decide
  · have hne : (natDigitsRev n).reverse ≠ [] := by
      simpa using natDigitsRev_ne_nil h0
    obtain ⟨c, cs, hcons⟩ := List.exists_cons_of_ne_nil hne
    rw [natToStr, if_neg h0, hcons]
    show parseDigitsAux 0 (c :: cs) = some n
    rw [← hcons]
    simpa using parseDigitsAux_digits n 0

theorem parseI32_intToStr {i : Int} (hlo : -2147483648 ≤ i) (hhi : i ≤ 2147483647) :
    parseI32 (intToStr i) = some i := by
  rw [intToStr]
  split
  · rename_i hneg
    show (if (45 : Nat) = 43 then
        (parseNatDigits (natToStr i.natAbs)).bind fun n =>
          if n ≤ 2147483647 then some ((n : Int)) else none
      else if (45 : Nat) = 45 then
        (parseNatDigits (natToStr i.natAbs)).bind fun n =>
          if n ≤ 2147483648 then some (-(n : Int)) else none
      else
        (parseNatDigits ((45 : Nat) :: natToStr i.natAbs)).bind fun n =>
          if n ≤ 2147483647 then some ((n : Int)) else none) = some i
    rw [if_neg (by omega), if_pos rfl, parseNatDigits_natToStr, Option.some_bind,
      if_pos (by omega : i.natAbs ≤ 2147483648)]
    congr 1
    omega
  · rename_i hneg
    obtain ⟨c, cs, hcons⟩ := List.exists_cons_of_ne_nil (natToStr_ne_nil i.natAbs)
    have hc : 48 ≤ c ∧ c ≤ 57 := natToStr_chars i.natAbs c (by rw [hcons]; simp)
    rw [hcons]
    show (if c = 43 then
        (parseNatDigits cs).bind fun n =>
          if n ≤ 2147483647 then some ((n : Int)) else none
      else if c = 45 then
        (parseNatDigits cs).bind fun n =>
          if n ≤ 2147483648 then some (-(n : Int)) else none
      else
        (parseNatDigits (c :: cs)).bind fun n =>
          if n ≤ 2147483647 then some ((n : Int)) else none) = some i
    rw [if_neg (by omega), if_neg (by omega), ← hcons, parseNatDigits_natToStr,
      Option.some_bind, if_pos (by omega : i.natAbs ≤ 2147483647)]
    congr 1
    omega

/-! ## Line splitting and trimming lemmas -/

theorem splitSep_ne_nil (sep : Nat) : ∀ l, splitSep sep l ≠ [] := by
  intro l
  induction l with
  | nil => simp [splitSep]
  | cons c cs ih =>
    rw [splitSep]
    obtain ⟨p, ps, h⟩ := List.exists_cons_of_ne_nil ih
    rw [h]
    split <;> split <;> simp

theorem splitSep_not_mem {sep : Nat} : ∀ {a : List Nat}, sep ∉ a →
    splitSep sep a = [a] := by
  intro a
  induction a with
  | nil => intro _; rfl
  | cons c cs ih =>
    intro h
    have hc : ¬(c = sep) := fun hh => h (hh ▸ List.mem_cons_self c cs)
    rw [splitSep, ih (fun hm => h (List.mem_cons_of_mem c hm))]
    simp [hc]

theorem splitSep_append {sep : Nat} : ∀ {a : List Nat} (b : List Nat), sep ∉ a →
    splitSep sep (a ++ sep :: b) = a :: splitSep sep b := by
  intro a
  induction a with
  | nil =>
    intro b _
    obtain ⟨p, ps, hp⟩ := List.exists_cons_of_ne_nil (splitSep_ne_nil sep b)
    rw [List.nil_append, splitSep, hp]
    simp

  | cons c cs ih =>
    intro b h
    have hc : ¬(c = sep) := fun hh => h (hh ▸ List.mem_cons_self c cs)
    rw [List.cons_append, splitSep, ih b (fun hm => h (List.mem_cons_of_mem c hm))]
    simp [hc]

theorem not_mem_hsLine_ten {h : Highscore} (hname : (10 : Nat) ∉ h.name) :
    (10 : Nat) ∉ hsLine h := by
  rw [hsLine]
  intro hm
  rcases List.mem_append.mp hm with hm | hm
  · rcases List.mem_append.mp hm with hm | hm
    · exact hname hm
    · simp at hm
  · rcases intToStr_chars h.score 10 hm with h45 | hd <;> omega

theorem not_mem_intToStr_colon (i : Int) : (58 : Nat) ∉ 32 :: intToStr i := by
  intro hm
  rcases List.mem_cons.mp hm with h32 | hm
  · omega
  · rcases intToStr_chars i 58 hm with h45 | hd <;> omega

theorem stripCR_hsLine (h : Highscore) : stripCR (hsLine h) = hsLine h := by
  rw [stripCR]
  obtain ⟨c, hc, hc1, hc2⟩ := intToStr_getLast h.score
  rw [hsLine, List.append_assoc,
    List.getLast?_append_of_ne_nil _ (by simp : ([58, 32] : List Nat) ++
      intToStr h.score ≠ []),
    List.getLast?_append_of_ne_nil _ (intToStr_ne_nil h.score), hc]
  have hcc : ¬((some c : Option Nat) = some 13) := by
    simp
    omega
  rw [if_neg hcc]

theorem splitSep_write : ∀ (hs : List Highscore),
    (∀ h ∈ hs, (10 : Nat) ∉ h.name) →
    splitSep 10 (write_highscores hs) = (hs.map hsLine) ++ [[]] := by
  intro hs
  induction hs with
  | nil =>
    intro _
    rfl
  | cons h t ih =>
    intro hnames
    rw [write_highscores,
      show hsLine h ++ [10] ++ write_highscores t =
        hsLine h ++ 10 :: write_highscores t from by simp,
      splitSep_append _ (not_mem_hsLine_ten (hnames h (List.mem_cons_self h t))),
      ih (fun g hg => hnames g (List.mem_cons_of_mem h hg))]
    simp

theorem bufLines_write (hs : List Highscore)
    (hnames : ∀ h ∈ hs, (10 : Nat) ∉ h.name) :
    bufLines (write_highscores hs) = hs.map hsLine := by
  rw [bufLines, splitSep_write hs hnames, List.getLast?_concat, if_pos rfl,
    List.dropLast_concat, List.map_map]
  rw [show hs.map hsLine = hs.map (id ∘ hsLine) from by simp]
  apply List.map_congr_left
  intro a _
  show stripCR (hsLine a) = hsLine a
  exact stripCR_hsLine a

theorem dropWhile_all_false {l : List Nat}
    (h : ∀ c ∈ l, isWs c = false) : l.dropWhile isWs = l := by
  cases l with
  | nil => rfl
  | cons c cs =>
    rw [List.dropWhile_cons, if_neg (by rw [h c (List.mem_cons_self c cs)]; simp)]

theorem isWs_intToStr (i : Int) : ∀ c ∈ intToStr i, isWs c = false := by
  intro c hc
  rcases intToStr_chars i c hc with rfl | hd <;> (rw [isWs]; simp; try omega)

theorem trim_space_intToStr (s : Int) : trim (32 :: intToStr s) = intToStr s := by
  rw [trim, List.dropWhile_cons, if_pos (by decide : isWs 32 = true),
    dropWhile_all_false (isWs_intToStr s),
    dropWhile_all_false (fun c hc => isWs_intToStr s c (List.mem_reverse.mp hc)),
    List.reverse_reverse]

/-! ## Record parsing and loading lemmas -/

theorem parseRecord_hsLine {h : Highscore} (h58 : (58 : Nat) ∉ h.name)
    (hlo : -2147483648 ≤ h.score) (hhi : h.score ≤ 2147483647) :
    parseRecord (hsLine h) = some h := by
  rw [parseRecord, hsLine]
  have hsplit : splitSep 58 (h.name ++ [58, 32] ++ intToStr h.score) =
      h.name :: splitSep 58 (32 :: intToStr h.score) := by
    rw [show h.name ++ [58, 32] ++ intToStr h.score =
      h.name ++ 58 :: (32 :: intToStr h.score) from by simp]
    exact splitSep_append _ h58
  rw [hsplit, splitSep_not_mem (not_mem_intToStr_colon h.score)]
  show (parseI32 (trim (32 :: intToStr h.score))).map
    (fun s => ({ name := h.name, score := s } : Highscore)) = some h
  rw [trim_space_intToStr, parseI32_intToStr hlo hhi]
  rfl

theorem loadLines_go (ls : List (List Nat)) : ∀ (acc : List Highscore),
    ls.foldl
      (fun acc line =>
        match parseRecord line with
        | some h => acc ++ [h]
        | none => acc) acc = acc ++ ls.filterMap parseRecord := by
  induction ls with
  | nil =>
    intro acc
    simp
  | cons l t ih =>
    intro acc
    rw [List.foldl_cons]
    rcases hp : parseRecord l with _ | h
    · rw [List.filterMap_cons_none hp]
      simpa [hp] using ih acc
    · rw [List.filterMap_cons_some hp]
      have := ih (acc ++ [h])
      simpa [hp] using this

theorem loadLines_eq (ls : List (List Nat)) :
    loadLines ls = ls.filterMap parseRecord := by
  rw [loadLines, loadLines_go ls []]
  rfl

theorem filterMap_id_of_some {α : Type} (f : α → Option α) :
    ∀ (l : List α), (∀ x ∈ l, f x = some x) → l.filterMap f = l := by
  intro l
  induction l with
  | nil => intro _; rfl
  | cons a t ih =>
    intro h
    rw [List.filterMap_cons_some (h a (List.mem_cons_self a t)),
      ih (fun x hx => h x (List.mem_cons_of_mem a hx))]

/-! ## Claim theorems: RankingStore persistence -/

/-- C8: loading the text produced by persisting any sequence of
well-formed ranking entries (names free of `\n` and `:`, scores in i32
range) reproduces exactly the same sequence of entries (so in particular
the same multiset). -/
theorem claim_C8 : ∀ hs : List Highscore,
    (∀ h ∈ hs, (10 : Nat) ∉ h.name ∧ (58 : Nat) ∉ h.name ∧
      -2147483648 ≤ h.score ∧ h.score ≤ 2147483647) →
    get_highscores (some (write_highscores hs)) = hs := by
  intro hs hwf
  show loadLines (bufLines (write_highscores hs)) = hs
  rw [bufLines_write hs (fun g hg => (hwf g hg).1), loadLines_eq,
    List.filterMap_map]
  apply filterMap_id_of_some
  intro x hx
  show parseRecord (hsLine x) = some x
  exact parseRecord_hsLine (hwf x hx).2.1 (hwf x hx).2.2.1 (hwf x hx).2.2.2

/-- C8 witness: a two-entry ranking with a negative score round-trips. -/
theorem claim_C8_witness :
    get_highscores (some (write_highscores
      [⟨[66, 111, 98], 250⟩, ⟨[], -7⟩])) = [⟨[66, 111, 98], 250⟩, ⟨[], -7⟩] :=
  claim_C8 [⟨[66, 111, 98], 250⟩, ⟨[], -7⟩] (by decide)

/-- C9: an unopenable ranking source loads as the empty list (not an
error); loading keeps exactly the lines that parse as records (in order);
and dropping one malformed line from any position leaves the loaded
records of all other lines unchanged — a malformed record never aborts
the rest of the load. -/
theorem claim_C9 :
    get_highscores none = [] ∧
    (∀ text, get_highscores (some text) = (bufLines text).filterMap parseRecord) ∧
    (∀ pre m suf, parseRecord m = none →
      loadLines (pre ++ m :: suf) = loadLines (pre ++ suf)) := by
  refine ⟨rfl, ?_, ?_⟩
  · intro text
    show loadLines (bufLines text) = _
    rw [loadLines_eq]
  · intro pre m suf hm
    rw [loadLines_eq, loadLines_eq, List.filterMap_append, List.filterMap_append,
      List.filterMap_cons_none hm]

/-- C9 witness: a malformed single-letter line between two well-formed records
is skipped without affecting them. -/
theorem claim_C9_witness :
    loadLines [[66, 58, 32, 53], [65], [67, 58, 32, 55]] =
      loadLines [[66, 58, 32, 53], [67, 58, 32, 55]] :=
  claim_C9.2.2 [[66, 58, 32, 53]] [65] [[67, 58, 32, 55]] (by decide)

end Yahtzee
